import Mathlib

/-!
Verification development for the valence-puzzle rule engine.

The definitions below are a shallow embedding of the Rust sources:
  * `src/graph/kings_graph.rs` — cells, grid positions, king's-move adjacency;
  * `src/graph/valences.rs`    — the 9-entry valence vector;
  * `src/graph/edge.rs`        — canonical edges and the drawn-edge collection;
  * `src/graph/state.rs`       — the puzzle state machine;
  * `src/graph/solution.rs`    — order-independent solution identity;
  * `src/game/session.rs`      — the puzzle session;
  * `src/game/puzzle/transforms.rs` and `src/game/puzzle/mod.rs` — symmetries
    and the puzzle library.

Machine integers (`usize`) are modelled as `Nat`.  The Rust `EdgeSet` keeps a
`HashSet` and an insertion-ordered `Vec` holding exactly the same elements (an
invariant maintained by all of its methods); it is modelled by the ordered
list alone, with membership read off from that list.  A Rust `HashSet` whose
equality is set equality (`Solution`, the session's found-set) is modelled as
a `Finset`.  Rust's `rand`-driven choices are modelled by passing the random
choice explicitly as a parameter.
-/

/-- Cell identifier for the 3x3 grid; `NodeId(pub usize)` with the `< 9`
validity invariant of `kings_graph.rs` carried in the type. -/
abbrev NodeId := Fin 9

/-- Grid position, `GridPos { row, col }` from `kings_graph.rs`. -/
structure GridPos where
  row : Nat
  col : Nat
deriving DecidableEq

namespace GridPos

/-- `GridPos::is_adjacent`: chess-king adjacency of two grid positions. -/
def isAdjacent (p q : GridPos) : Prop :=
  p ≠ q ∧ ((p.row : Int) - q.row).natAbs ≤ 1 ∧ ((p.col : Int) - q.col).natAbs ≤ 1

instance (p q : GridPos) : Decidable (isAdjacent p q) := by
  unfold isAdjacent; infer_instance

/-- `GridPos::from_node_id`: row-major decoding of a cell id. -/
def fromNodeId (n : NodeId) : GridPos :=
  { row := n.val / 3, col := n.val % 3 }

end GridPos

/-- `KingsGraph::new_3x3` builds, for every cell, the list of the other cells
whose grid positions are king-adjacent to it. -/
def kingsAdjacency (n : NodeId) : List NodeId :=
  (List.finRange 9).filter
    (fun m => decide (m ≠ n ∧ GridPos.isAdjacent (GridPos.fromNodeId n) (GridPos.fromNodeId m)))

/-- `KingsGraph::are_adjacent`: membership in the built adjacency list.  (The
Rust bounds check is vacuous here because `NodeId` is `Fin 9`.) -/
def areAdjacent (a b : NodeId) : Prop :=
  b ∈ kingsAdjacency a

instance (a b : NodeId) : Decidable (areAdjacent a b) := by
  unfold areAdjacent; infer_instance

/-- `Edge` from `edge.rs`: an unordered pair stored canonically with
`from <= to`. -/
structure Edge where
  from' : NodeId
  to' : NodeId
deriving DecidableEq

namespace Edge

/-- `Edge::new`: create an edge, automatically ordering the two nodes. -/
def new (a b : NodeId) : Edge :=
  if a ≤ b then { from' := a, to' := b } else { from' := b, to' := a }

end Edge

/-- `EdgeSet` from `edge.rs`.  The Rust struct pairs a `HashSet` with a
draw-order `Vec` containing the same elements; every method maintains that
invariant, so the collection is embedded as the draw-order list alone. -/
structure EdgeSet where
  drawOrder : List Edge
deriving DecidableEq

namespace EdgeSet

/-- `EdgeSet::new`. -/
def new : EdgeSet := { drawOrder := [] }

/-- `EdgeSet::contains`. -/
def contains (s : EdgeSet) (e : Edge) : Prop :=
  e ∈ s.drawOrder

instance (s : EdgeSet) (e : Edge) : Decidable (s.contains e) := by
  unfold contains; infer_instance

/-- `EdgeSet::add`: push onto the draw order iff the edge is new. -/
def add (s : EdgeSet) (e : Edge) : EdgeSet :=
  if s.contains e then s else { drawOrder := s.drawOrder ++ [e] }

/-- `EdgeSet::pop`: remove and return the most recently drawn edge. -/
def pop (s : EdgeSet) : Option Edge × EdgeSet :=
  match s.drawOrder.getLast? with
  | none => (none, s)
  | some e => (some e, { drawOrder := s.drawOrder.dropLast })

/-- `EdgeSet::len`. -/
def len (s : EdgeSet) : Nat := s.drawOrder.length

/-- `EdgeSet::clear`. -/
def clear (_ : EdgeSet) : EdgeSet := { drawOrder := [] }

end EdgeSet

/-- `Valences` from `valences.rs`: exactly 9 counters indexed by cell,
embedded as a function out of `Fin 9`. -/
def Valences := NodeId → Nat

instance : DecidableEq Valences := by
  unfold Valences; infer_instance

namespace Valences

/-- Build a valence vector from a list (entries beyond the list are 0);
used to write down concrete 9-entry configurations. -/
def ofList (l : List Nat) : Valences := fun i => l.getD i.val 0

/-- `Valences::get`. -/
def get (v : Valences) (n : NodeId) : Nat := v n

/-- `Valences::decrement` (Rust `-= 1` on `usize`; the state machine only
calls it on cells validated to be nonzero — claim C7). -/
def decrement (v : Valences) (n : NodeId) : Valences :=
  Function.update v n (v n - 1)

/-- `Valences::increment`. -/
def increment (v : Valences) (n : NodeId) : Valences :=
  Function.update v n (v n + 1)

/-- `Valences::all_zero`. -/
def allZero (v : Valences) : Prop := ∀ i, v i = 0

instance (v : Valences) : Decidable (allZero v) := by
  unfold allZero; infer_instance

/-- `Valences::total`. -/
def total (v : Valences) : Nat := ∑ i, v i

end Valences

/-- `ValidationError` from `state.rs`. -/
inductive ValidationError where
  | NodeHasNoValence (n : NodeId)
  | NodesNotAdjacent (a b : NodeId)
  | EdgeAlreadyExists (e : Edge)
  | CannotAddValenceOne (n : NodeId)
  | SameNodeTwice (n : NodeId)
deriving DecidableEq

/-- `MoveResult` from `state.rs`. -/
inductive MoveResult where
  | EdgeAdded (e : Edge)
  | FirstNode (n : NodeId)
  | Invalid (err : ValidationError)
  | PuzzleComplete
deriving DecidableEq

/-- `GameState` from `state.rs`.  The `KingsGraph` field is static data
(`KingsGraph::default()` for every state) and is referenced through the
global `areAdjacent`. -/
structure GameState where
  puzzleValences : Valences
  currentValences : Valences
  edges : EdgeSet
  currentTrail : List NodeId
deriving DecidableEq

namespace GameState

/-- `GameState::new`. -/
def new (puzzleValences : Valences) : GameState :=
  { puzzleValences := puzzleValences
    currentValences := puzzleValences
    edges := EdgeSet.new
    currentTrail := [] }

/-- `GameState::valence`. -/
def valence (s : GameState) (n : NodeId) : Nat := s.currentValences.get n

/-- `GameState::total_remaining_valence`. -/
def totalRemainingValence (s : GameState) : Nat := s.currentValences.total

/-- `GameState::is_last_edge`. -/
def isLastEdge (s : GameState) : Prop := s.totalRemainingValence = 2

instance (s : GameState) : Decidable s.isLastEdge := by
  unfold isLastEdge; infer_instance

/-- `GameState::is_complete`. -/
def isComplete (s : GameState) : Prop := s.currentValences.allZero

instance (s : GameState) : Decidable s.isComplete := by
  unfold isComplete; infer_instance

/-- `GameState::can_add_node`, check for check in source order. -/
def canAddNode (s : GameState) (node : NodeId) : Except ValidationError Unit :=
  if s.valence node = 0 then .error (.NodeHasNoValence node)
  else
    match s.currentTrail.getLast? with
    | none => .ok ()
    | some last =>
      if node = last then .error (.SameNodeTwice node)
      else if ¬ areAdjacent node last then .error (.NodesNotAdjacent last node)
      else
        if s.edges.contains (Edge.new node last) then
          .error (.EdgeAlreadyExists (Edge.new node last))
        else if s.valence node = 1 ∧ ¬ s.isLastEdge then
          .error (.CannotAddValenceOne node)
        else .ok ()

/-- `GameState::add_node`; returns the `MoveResult` and the updated state. -/
def addNode (s : GameState) (node : NodeId) : MoveResult × GameState :=
  match canAddNode s node with
  | .error e => (.Invalid e, s)
  | .ok _ =>
    match s.currentTrail.getLast? with
    | none => (.FirstNode node, { s with currentTrail := s.currentTrail ++ [node] })
    | some last =>
      let edge := Edge.new node last
      let s' : GameState :=
        { s with
          edges := s.edges.add edge
          currentValences := (s.currentValences.decrement node).decrement last
          currentTrail := s.currentTrail ++ [node] }
      if s'.isComplete then (.PuzzleComplete, s') else (.EdgeAdded edge, s')

/-- `GameState::pop_node` (undo); returns the removed node and the updated
state.  The two `none` fallbacks are unreachable: the first needs an empty
trail (excluded by the length guard) and the second a singleton trail. -/
def popNode (s : GameState) : Option NodeId × GameState :=
  if s.currentTrail.length ≤ 1 then
    (none, { s with currentTrail := [] })
  else
    match s.currentTrail.getLast? with
    | none => (none, { s with currentTrail := [] })
    | some node =>
      let rest := s.currentTrail.dropLast
      match rest.getLast? with
      | none => (some node, { s with currentTrail := rest })
      | some prev =>
        match s.edges.pop with
        | (none, es) => (some node, { s with currentTrail := rest, edges := es })
        | (some _, es) =>
          (some node,
            { s with
              currentTrail := rest
              edges := es
              currentValences := (s.currentValences.increment node).increment prev })

/-- `GameState::reset`. -/
def reset (s : GameState) : GameState :=
  { s with
    currentValences := s.puzzleValences
    edges := s.edges.clear
    currentTrail := [] }

end GameState

/-- One public operation on the state machine: the moves reachable states are
closed under. -/
inductive Op where
  | add (n : NodeId)
  | pop
  | reset
deriving DecidableEq

/-- Apply one public operation, discarding the reported result. -/
def stepOp (s : GameState) : Op → GameState
  | .add n => (s.addNode n).2
  | .pop => (s.popNode).2
  | .reset => s.reset

/-- Run a sequence of public operations. -/
def runOps (ops : List Op) (s : GameState) : GameState :=
  ops.foldl stepOp s

/-- `Solution` from `solution.rs`: a `HashSet<Edge>` whose equality is set
equality, embedded as a `Finset Edge`. -/
structure Solution where
  edges : Finset Edge
deriving DecidableEq

namespace Solution

/-- `Solution::from_edge_set`: collect the edge collection's members. -/
def fromEdgeSet (es : EdgeSet) : Solution :=
  { edges := es.drawOrder.toFinset }

/-- `Solution::from_edges` built by repeated `add_edge` insertion from a
list of edges in some discovery order. -/
def fromEdgeList (l : List Edge) : Solution :=
  { edges := l.toFinset }

/-- The sort key `(e.from, e.to)` order used by `impl Hash for Solution`
(`edges.sort_unstable_by_key(|e| (e.from, e.to))`). -/
def keyLe (e f : Edge) : Prop :=
  e.from' < f.from' ∨ (e.from' = f.from' ∧ e.to' ≤ f.to')

instance : DecidableRel keyLe := by
  unfold keyLe; infer_instance

instance : IsTrans Edge keyLe := by
  constructor
  intro a b c hab hbc
  rcases hab with h1 | ⟨h1, h1'⟩ <;> rcases hbc with h2 | ⟨h2, h2'⟩
  · exact Or.inl (lt_trans h1 h2)
  · exact Or.inl (h2 ▸ h1)
  · exact Or.inl (h1 ▸ h2)
  · exact Or.inr ⟨h1.trans h2, le_trans h1' h2'⟩

instance : IsAntisymm Edge keyLe := by
  constructor
  intro a b hab hba
  rcases hab with h1 | ⟨h1, h1'⟩ <;> rcases hba with h2 | ⟨h2, h2'⟩
  · exact absurd h2 (lt_asymm h1)
  · exact absurd h1 (h2 ▸ lt_irrefl _)
  · exact absurd h2 (h1 ▸ lt_irrefl _)
  · have h2'' : b.to' ≤ a.to' := h2'
    cases a; cases b
    simp only [Edge.mk.injEq]
    exact ⟨h1, le_antisymm h1' h2''⟩

instance : IsTotal Edge keyLe := by
  constructor
  intro a b
  rcases lt_trichotomy a.from' b.from' with h | h | h
  · exact Or.inl (Or.inl h)
  · rcases le_total a.to' b.to' with h' | h'
    · exact Or.inl (Or.inr ⟨h, h'⟩)
    · exact Or.inr (Or.inr ⟨h.symm, h'⟩)
  · exact Or.inr (Or.inl h)

/-- The canonically sorted edge list that `impl Hash for Solution` feeds to
the hasher; two solutions hash alike iff these lists coincide. -/
def hashRep (s : Solution) : List Edge :=
  s.edges.sort keyLe

end Solution

/-- `SessionResult` from `session.rs`. -/
inductive SessionResult where
  | FirstNode (n : NodeId)
  | EdgeAdded (e : Edge)
  | Complete (solution : Solution) (isNew : Bool)
  | Invalid (err : ValidationError)
deriving DecidableEq

/-- `PuzzleSession` from `session.rs`.  The `HashSet<Solution>` found-set is
embedded as a `Finset Solution`. -/
structure PuzzleSession where
  state : GameState
  foundSolutions : Finset Solution
  totalSolutions : Nat
deriving DecidableEq

namespace PuzzleSession

/-- `PuzzleSession::new`. -/
def new (puzzleValences : Valences) (totalSolutions : Nat) : PuzzleSession :=
  { state := GameState.new puzzleValences
    foundSolutions := ∅
    totalSolutions := totalSolutions }

/-- `PuzzleSession::is_solution_known`. -/
def isSolutionKnown (ps : PuzzleSession) (sol : Solution) : Prop :=
  sol ∈ ps.foundSolutions

instance (ps : PuzzleSession) (sol : Solution) : Decidable (ps.isSolutionKnown sol) := by
  unfold isSolutionKnown; infer_instance

/-- `PuzzleSession::add_node`: delegate to the state machine and, on
completion, record the solution if it is new. -/
def addNode (ps : PuzzleSession) (n : NodeId) : SessionResult × PuzzleSession :=
  match (ps.state.addNode n : MoveResult × GameState) with
  | (.PuzzleComplete, st) =>
    let sol := Solution.fromEdgeSet st.edges
    if ps.isSolutionKnown sol then
      (.Complete sol false, { ps with state := st })
    else
      (.Complete sol true,
        { ps with state := st, foundSolutions := insert sol ps.foundSolutions })
  | (.EdgeAdded e, st) => (.EdgeAdded e, { ps with state := st })
  | (.FirstNode m, st) => (.FirstNode m, { ps with state := st })
  | (.Invalid err, st) => (.Invalid err, { ps with state := st })

/-- `PuzzleSession::undo`. -/
def undo (ps : PuzzleSession) : Option NodeId × PuzzleSession :=
  let (n, st) := ps.state.popNode
  (n, { ps with state := st })

/-- `PuzzleSession::reset` (keeps the found solutions). -/
def reset (ps : PuzzleSession) : PuzzleSession :=
  { ps with state := ps.state.reset }

end PuzzleSession

/-- Feed a list of node attempts to a session, collecting every reported
`SessionResult` (test-harness helper for the scenario claims). -/
def runSession (ps : PuzzleSession) : List NodeId → List SessionResult × PuzzleSession
  | [] => ([], ps)
  | n :: rest =>
    let (r, ps') := ps.addNode n
    let (rs, ps'') := runSession ps' rest
    (r :: rs, ps'')

/-- `Symmetry` from `transforms.rs`: the 8 symmetries of the square. -/
inductive Symmetry where
  | Identity
  | Rot90
  | Rot180
  | Rot270
  | FlipHorizontal
  | FlipVertical
  | FlipMainDiag
  | FlipAntiDiag
deriving DecidableEq, Fintype

namespace Symmetry

/-- `Symmetry::all` (test support in `transforms.rs`): the 8 symmetries. -/
def all : List Symmetry :=
  [Identity, Rot90, Rot180, Rot270, FlipHorizontal, FlipVertical, FlipMainDiag, FlipAntiDiag]

end Symmetry

/-- The index-remap table of `apply_symmetry`: entry `i` of the transformed
array is entry `symTable s i` of the input array, copying the literal
per-symmetry index arrays of `transforms.rs`. -/
def symTable (s : Symmetry) : List NodeId :=
  match s with
  | .Identity => [0, 1, 2, 3, 4, 5, 6, 7, 8]
  | .Rot90 => [6, 3, 0, 7, 4, 1, 8, 5, 2]
  | .Rot180 => [8, 7, 6, 5, 4, 3, 2, 1, 0]
  | .Rot270 => [2, 5, 8, 1, 4, 7, 0, 3, 6]
  | .FlipHorizontal => [2, 1, 0, 5, 4, 3, 8, 7, 6]
  | .FlipVertical => [6, 7, 8, 3, 4, 5, 0, 1, 2]
  | .FlipMainDiag => [0, 3, 6, 1, 4, 7, 2, 5, 8]
  | .FlipAntiDiag => [8, 5, 2, 7, 4, 1, 6, 3, 0]

/-- `apply_symmetry` from `transforms.rs`. -/
def applySymmetry (v : Valences) (s : Symmetry) : Valences :=
  fun i => v ((symTable s).getD i.val 0)

/-- `PuzzleConfig` from `game/puzzle/mod.rs`. -/
structure PuzzleConfig where
  valences : Valences
  complexity : Nat
  totalSolutions : Nat
deriving DecidableEq

/-- `PuzzleLibrary` from `game/puzzle/mod.rs`: the complexity-keyed
`HashMap<usize, Vec<BasePuzzle>>`, embedded as an association list with
distinct keys (each `BasePuzzle` is just its valence vector). -/
structure PuzzleLibrary where
  puzzlesByComplexity : List (Nat × List Valences)
deriving DecidableEq

namespace PuzzleLibrary

/-- `self.puzzles_by_complexity.get(&complexity)`. -/
def lookupComplexity (lib : PuzzleLibrary) (complexity : Nat) : Option (List Valences) :=
  (lib.puzzlesByComplexity.find? (fun p => p.1 == complexity)).map Prod.snd

/-- `PuzzleLibrary::solution_count_for_puzzle`:
`complexity / (valences.total() / 2)` in integer arithmetic. -/
def solutionCountForPuzzle (valences : Valences) (complexity : Nat) : Nat :=
  complexity / (valences.total / 2)

/-- `SliceRandom::choose` modelled with the random draw passed explicitly:
returns `none` exactly on the empty list, and can return any element. -/
def choose (l : List Valences) (pick : Nat) : Option Valences :=
  l.get? (pick % l.length)

/-- `PuzzleLibrary::random_puzzle` with the two random draws (the record
pick and the symmetry) passed explicitly. -/
def randomPuzzle (lib : PuzzleLibrary) (complexity : Nat) (pick : Nat) (sym : Symmetry) :
    Option PuzzleConfig :=
  match lib.lookupComplexity complexity with
  | none => none
  | some basePuzzles =>
    match choose basePuzzles pick with
    | none => none
    | some base =>
      let valences := applySymmetry base sym
      some
        { valences := valences
          complexity := complexity
          totalSolutions := solutionCountForPuzzle valences complexity }

end PuzzleLibrary

/-- Spec-side king adjacency, written from the spec's words (glossary /
§3): two cells are adjacent iff they are distinct and their row and column
differences are both at most 1.  Compared against the source's
list-membership `areAdjacent` in claim C1. -/
def kingAdjacent (a b : NodeId) : Prop :=
  a ≠ b
    ∧ ((a.val / 3 : Int) - (b.val / 3 : Int)).natAbs ≤ 1
    ∧ ((a.val % 3 : Int) - (b.val % 3 : Int)).natAbs ≤ 1

instance (a b : NodeId) : Decidable (kingAdjacent a b) := by
  unfold kingAdjacent; infer_instance

/-- Spec-side move validation, written step by step from claim C1's wording:
(1) zero valence, (2) empty trail accepts, (3) repeated cell, (4) not
king-adjacent, (5) edge already drawn, (6) valence-1 closure unless the
total remaining valence is exactly 2; otherwise accept. -/
def canAddSpec (s : GameState) (node : NodeId) : Except ValidationError Unit :=
  if s.currentValences node = 0 then .error (.NodeHasNoValence node)
  else
    match s.currentTrail.getLast? with
    | none => .ok ()
    | some last =>
      if node = last then .error (.SameNodeTwice node)
      else if ¬ kingAdjacent node last then .error (.NodesNotAdjacent last node)
      else if Edge.new node last ∈ s.edges.drawOrder then
        .error (.EdgeAlreadyExists (Edge.new node last))
      else if s.currentValences node = 1 ∧ s.currentValences.total ≠ 2 then
        .error (.CannotAddValenceOne node)
      else .ok ()

/-- The triangle configuration of the spec's §8 scenario: cells 0, 1, 3. -/
def vTri : Valences := Valences.ofList [2, 2, 0, 2, 0, 0, 0, 0, 0]

/-- The single-edge configuration `[1,1,0,...]` from the spec's §8. -/
def vPair : Valences := Valences.ofList [1, 1, 0, 0, 0, 0, 0, 0, 0]

/-- The all-zero configuration. -/
def vZero : Valences := Valences.ofList []

/-- A fully asymmetric valence vector: all 9 entries pairwise distinct. -/
def vAsym : Valences := Valences.ofList [1, 2, 3, 4, 5, 6, 7, 8, 9]

/-- A one-record library used to instantiate library claims concretely. -/
def libOne : PuzzleLibrary := { puzzlesByComplexity := [(6, [vTri])] }

/-- Whether a `MoveResult` is a validation rejection. -/
def MoveResult.isInvalid : MoveResult → Bool
  | .Invalid _ => true
  | _ => false

/-- The inductive invariant of the state machine, holding in every state
reachable through the public `add_node` / `pop_node` / `reset` surface:
(1) valence conservation — current total plus twice the drawn-edge count
equals the target total; (2) an empty trail carries no edges; (3) a
nonempty trail has exactly one more entry than the edge collection, and its
last cell retains valence at least 1 unless the whole board is exhausted. -/
def ReachInv (s : GameState) : Prop :=
  s.currentValences.total + 2 * s.edges.len = s.puzzleValences.total
    ∧ (s.currentTrail = [] → s.edges.drawOrder = [])
    ∧ (∀ last, s.currentTrail.getLast? = some last →
        s.currentTrail.length = s.edges.len + 1
          ∧ (1 ≤ s.currentValences last ∨ s.currentValences.total = 0))

namespace Valences

lemma total_update (v : Valences) (n : NodeId) (x : Nat) :
    Valences.total (Function.update v n x) + v n = v.total + x := by
  unfold total
  rw [Fintype.sum_eq_add_sum_compl n (Function.update v n x),
    Fintype.sum_eq_add_sum_compl n v, Function.update_same]
  have h : ∑ i ∈ ({n}ᶜ : Finset NodeId), Function.update v n x i
      = ∑ i ∈ ({n}ᶜ : Finset NodeId), v i := by
    refine Finset.sum_congr rfl (fun i hi => ?_)
    have hin : i ≠ n := by simpa using hi
    exact Function.update_noteq hin _ _
  omega

lemma total_decrement (v : Valences) (n : NodeId) (h : 1 ≤ v n) :
    (v.decrement n).total = v.total - 1 := by
  have := total_update v n (v n - 1)
  unfold decrement
  omega

lemma total_increment (v : Valences) (n : NodeId) :
    (v.increment n).total = v.total + 1 := by
  have := total_update v n (v n + 1)
  unfold increment
  omega

lemma allZero_iff_total (v : Valences) : v.allZero ↔ v.total = 0 := by
  unfold allZero total
  rw [Finset.sum_eq_zero_iff]
  simp

lemma pair_le_total (v : Valences) {i j : NodeId} (hij : i ≠ j) :
    v i + v j ≤ v.total := by
  unfold total
  rw [← Finset.sum_pair hij]
  exact Finset.sum_le_sum_of_subset (Finset.subset_univ _)

lemma decrement_same (v : Valences) (n : NodeId) : v.decrement n n = v n - 1 :=
  Function.update_same ..

lemma decrement_noteq (v : Valences) {m n : NodeId} (h : m ≠ n) : v.decrement n m = v m :=
  Function.update_noteq h _ _

lemma increment_same (v : Valences) (n : NodeId) : v.increment n n = v n + 1 :=
  Function.update_same ..

lemma increment_noteq (v : Valences) {m n : NodeId} (h : m ≠ n) : v.increment n m = v m :=
  Function.update_noteq h _ _

end Valences

/-- The adjacency relation built from the exhaustive 81-pair scan of
`KingsGraph::new_3x3` agrees with the direct king-move rule. -/
lemma areAdjacent_iff_kingAdjacent (a b : NodeId) : areAdjacent a b ↔ kingAdjacent a b := by
  revert a b
  decide

/-- C1: `can_add_node` evaluates its checks in exactly the claimed
short-circuiting order: (1) zero current valence rejects with
`NodeHasNoValence` (spec: *NoValenceRemaining*); (2) an empty trail
accepts; (3) a candidate equal to the trail's last cell rejects with
`SameNodeTwice` (*RepeatedCell*); (4) a candidate not king-adjacent to the
last cell rejects with `NodesNotAdjacent` (*NotAdjacent*); (5) a canonical
edge already drawn rejects with `EdgeAlreadyExists` (*EdgeAlreadyDrawn*);
(6) a candidate of current valence exactly 1 with the total remaining
valence not equal to 2 rejects with `CannotAddValenceOne`
(*PrematureValenceOneClosure*); otherwise it accepts.  Stated as: the
source's validation equals the cascade `canAddSpec` transcribed from the
claim. -/
theorem canAddNode_eq_canAddSpec (s : GameState) (node : NodeId) :
    s.canAddNode node = canAddSpec s node := by
  unfold GameState.canAddNode canAddSpec GameState.valence Valences.get GameState.isLastEdge
    GameState.totalRemainingValence EdgeSet.contains
  cases h : s.currentTrail.getLast? with
  | none => rfl
  | some last =>
    by_cases hz : s.currentValences node = 0
    · simp [hz]
    · by_cases hl : node = last
      · simp [hz, hl]
      · by_cases hadj : kingAdjacent node last
        · have hadj' : areAdjacent node last := (areAdjacent_iff_kingAdjacent node last).mpr hadj
          simp [hz, hl, hadj, hadj']
        · have hadj' : ¬ areAdjacent node last :=
            fun hc => hadj ((areAdjacent_iff_kingAdjacent node last).mp hc)
          simp [hz, hl, hadj, hadj']

/-- C4: rejection atomicity — whenever `add_node` reports a validation
rejection (`Invalid` with any of the five reasons), the returned state is
exactly the state before the call: current valences, edge collection and
trail are all unchanged. -/
theorem addNode_invalid_unchanged (s : GameState) (n : NodeId) (e : ValidationError)
    (h : (s.addNode n).1 = .Invalid e) : (s.addNode n).2 = s := by
  unfold GameState.addNode at h ⊢
  cases hc : s.canAddNode n with
  | error e' => simp [hc]
  | ok u =>
    exfalso
    rw [hc] at h
    cases hl : s.currentTrail.getLast? with
    | none => rw [hl] at h; simp at h
    | some last =>
      rw [hl] at h
      dsimp only at h
      split at h <;> simp at h

/-- C4 witness: attempting to re-add the trail's only cell on the pair
configuration is rejected and the state is returned untouched. -/
theorem addNode_invalid_unchanged_witness :
    (((GameState.new vPair).addNode 0).2.addNode 0).2 = ((GameState.new vPair).addNode 0).2 :=
  addNode_invalid_unchanged ((GameState.new vPair).addNode 0).2 0
    (.SameNodeTwice 0) (by decide)

/-- C10 (implicit): whenever every entry of the current valence vector is
zero, `add_node(n)` returns `Invalid (NodeHasNoValence n)` for every cell
`n` and leaves the state unchanged — no move is accepted on a completed
puzzle until reset or a new puzzle. -/
theorem addNode_allZero_rejects (s : GameState) (n : NodeId)
    (h : s.currentValences.allZero) :
    s.addNode n = (.Invalid (.NodeHasNoValence n), s) := by
  have hv : s.valence n = 0 := h n
  unfold GameState.addNode GameState.canAddNode
  simp [hv]

/-- C10 witness: the state reached by completing the pair puzzle is
all-zero, and every one of the 9 cells is then rejected with
`NodeHasNoValence`, leaving the state unchanged. -/
theorem addNode_allZero_rejects_witness :
    (((GameState.new vPair).addNode 0).2.addNode 1).2.addNode 4
      = (.Invalid (.NodeHasNoValence 4), (((GameState.new vPair).addNode 0).2.addNode 1).2) :=
  addNode_allZero_rejects (((GameState.new vPair).addNode 0).2.addNode 1).2 4 (by decide)

lemma Valences.single_le_total (v : Valences) (i : NodeId) : v i ≤ v.total :=
  Finset.single_le_sum (fun _ _ => Nat.zero_le _) (Finset.mem_univ i)

/-- What a successful validation guarantees about the state, read off the
source cascade. -/
lemma canAddNode_ok_facts (s : GameState) (n : NodeId) (h : s.canAddNode n = .ok ()) :
    s.currentValences n ≠ 0
      ∧ ∀ last, s.currentTrail.getLast? = some last →
          n ≠ last ∧ areAdjacent n last ∧ ¬ s.edges.contains (Edge.new n last)
            ∧ (s.currentValences n = 1 → s.currentValences.total = 2) := by
  unfold GameState.canAddNode at h
  by_cases hz : s.valence n = 0
  · rw [if_pos hz] at h
    exact absurd h (by simp)
  · rw [if_neg hz] at h
    refine ⟨hz, ?_⟩
    intro last hlast
    rw [hlast] at h
    dsimp only at h
    split_ifs at h with h1 h2 h3 h4
    exact ⟨h1, h2, h3, fun hv1 => Classical.byContradiction fun hne => h4 ⟨hv1, hne⟩⟩

lemma reachInv_new (v : Valences) : ReachInv (GameState.new v) := by
  refine ⟨?_, fun _ => rfl, ?_⟩
  · simp [GameState.new, EdgeSet.new, EdgeSet.len]
  · intro last hlast
    simp [GameState.new] at hlast

lemma reachInv_reset (s : GameState) : ReachInv s.reset := by
  unfold GameState.reset EdgeSet.clear
  refine ⟨?_, fun _ => rfl, ?_⟩
  · simp [EdgeSet.len]
  · intro last hlast
    simp at hlast

lemma reachInv_add (s : GameState) (n : NodeId) (h : ReachInv s) :
    ReachInv (s.addNode n).2 := by
  unfold GameState.addNode
  cases hc : s.canAddNode n with
  | error e => exact h
  | ok u =>
    cases u
    obtain ⟨hz, hrest⟩ := canAddNode_ok_facts s n hc
    cases hl : s.currentTrail.getLast? with
    | none =>
      have htrail : s.currentTrail = [] := List.getLast?_eq_none_iff.mp hl
      have hedges : s.edges.drawOrder = [] := h.2.1 htrail
      dsimp only
      refine ⟨h.1, by simp, ?_⟩
      intro last hlast
      rw [htrail] at hlast
      simp only [List.nil_append, List.getLast?_singleton, Option.some.injEq] at hlast
      subst hlast
      constructor
      · simp [htrail, EdgeSet.len, hedges]
      · exact Or.inl (Nat.one_le_iff_ne_zero.mpr hz)
    | some last =>
      obtain ⟨hnl, hadj, hcont, hone⟩ := hrest last hl
      have hn1 : 1 ≤ s.currentValences n := Nat.one_le_iff_ne_zero.mpr hz
      have hlast1 : 1 ≤ s.currentValences last := by
        rcases (h.2.2 last hl).2 with h' | h'
        · exact h'
        · exfalso
          have := Valences.single_le_total s.currentValences n
          omega
      have hlen := (h.2.2 last hl).1
      have htot2 : 2 ≤ s.currentValences.total := by
        have := Valences.pair_le_total s.currentValences hnl
        omega
      have hld : s.currentValences.decrement n last = s.currentValences last :=
        Valences.decrement_noteq _ (Ne.symm hnl)
      have hv2 : Valences.total ((s.currentValences.decrement n).decrement last)
          = s.currentValences.total - 2 := by
        rw [Valences.total_decrement _ _ (by rw [hld]; exact hlast1),
          Valences.total_decrement _ _ hn1]
        omega
      have haddE : s.edges.add (Edge.new n last)
          = { drawOrder := s.edges.drawOrder ++ [Edge.new n last] } := by
        unfold EdgeSet.add
        rw [if_neg hcont]
      have main : ReachInv
          { s with
            edges := s.edges.add (Edge.new n last)
            currentValences := (s.currentValences.decrement n).decrement last
            currentTrail := s.currentTrail ++ [n] } := by
        refine ⟨?_, by simp, ?_⟩
        · have hlen' : (s.edges.add (Edge.new n last)).len = s.edges.len + 1 := by
            rw [haddE]
            unfold EdgeSet.len
            simp
          have h1 := h.1
          dsimp only
          rw [hv2, hlen']
          omega
        · intro last' hlast'
          dsimp only at hlast' ⊢
          rw [List.getLast?_concat] at hlast'
          have hln : last' = n := (Option.some.inj hlast').symm
          constructor
          · rw [haddE]
            unfold EdgeSet.len at hlen ⊢
            simp only [List.length_append, List.length_singleton]
            omega
          · rw [hln]
            have hvn : ((s.currentValences.decrement n).decrement last) n
                = s.currentValences n - 1 := by
              rw [Valences.decrement_noteq _ hnl, Valences.decrement_same]
            by_cases hone' : s.currentValences n = 1
            · refine Or.inr ?_
              rw [hv2, hone hone']
            · refine Or.inl ?_
              omega
      dsimp only
      split <;> exact main

lemma reachInv_pop (s : GameState) (h : ReachInv s) : ReachInv s.popNode.2 := by
  unfold GameState.popNode
  by_cases hlen : s.currentTrail.length ≤ 1
  · rw [if_pos hlen]
    have hedges : s.edges.drawOrder = [] := by
      cases htr : s.currentTrail with
      | nil => exact h.2.1 htr
      | cons a t =>
        have ht : t = [] := by
          rw [htr] at hlen
          simp only [List.length_cons] at hlen
          exact List.length_eq_zero.mp (by omega)
        subst ht
        have hlast := (h.2.2 a (by rw [htr]; rfl)).1
        rw [htr] at hlast
        simp only [List.length_singleton] at hlast
        unfold EdgeSet.len at hlast
        exact List.length_eq_zero.mp (by omega)
    refine ⟨h.1, fun _ => hedges, ?_⟩
    intro last hlast
    simp at hlast
  · rw [if_neg hlen]
    push_neg at hlen
    cases hl : s.currentTrail.getLast? with
    | none =>
      exfalso
      have := List.getLast?_eq_none_iff.mp hl
      rw [this] at hlen
      simp at hlen
    | some node =>
      dsimp only
      cases hr : s.currentTrail.dropLast.getLast? with
      | none =>
        exfalso
        have hnil := List.getLast?_eq_none_iff.mp hr
        have hdl := List.length_dropLast s.currentTrail
        rw [hnil] at hdl
        simp only [List.length_nil] at hdl
        omega
      | some prev =>
        have hlentr := (h.2.2 node hl).1
        unfold EdgeSet.len at hlentr
        have helen : 1 ≤ s.edges.drawOrder.length := by omega
        cases hE : s.edges.drawOrder.getLast? with
        | none =>
          exfalso
          have := List.getLast?_eq_none_iff.mp hE
          rw [this] at helen
          simp at helen
        | some e =>
          unfold EdgeSet.pop
          rw [hE]
          dsimp only
          have hdle := List.length_dropLast s.edges.drawOrder
          have hdl := List.length_dropLast s.currentTrail
          refine ⟨?_, ?_, ?_⟩
          · have h1 := Valences.total_increment s.currentValences node
            have h2 := Valences.total_increment (s.currentValences.increment node) prev
            have h0 := h.1
            unfold EdgeSet.len at h0 ⊢
            dsimp only
            omega
          · intro hrest
            exfalso
            dsimp only at hrest
            rw [hrest] at hr
            simp at hr
          · intro last' hlast'
            rw [hr] at hlast'
            have hlp : last' = prev := (Option.some.inj hlast').symm
            constructor
            · unfold EdgeSet.len
              dsimp only
              omega
            · refine Or.inl ?_
              dsimp only
              rw [hlp, Valences.increment_same]
              omega

lemma reachInv_step (s : GameState) (op : Op) (h : ReachInv s) : ReachInv (stepOp s op) := by
  cases op with
  | add n => exact reachInv_add s n h
  | pop => exact reachInv_pop s h
  | reset => exact reachInv_reset s

lemma reachInv_runOps (ops : List Op) (s : GameState) (h : ReachInv s) :
    ReachInv (runOps ops s) := by
  induction ops generalizing s with
  | nil => exact h
  | cons op rest ih => exact ih (stepOp s op) (reachInv_step s op h)

lemma reachInv_reachable (v : Valences) (ops : List Op) :
    ReachInv (runOps ops (GameState.new v)) :=
  reachInv_runOps ops _ (reachInv_new v)

lemma addNode_puzzleValences (s : GameState) (n : NodeId) :
    (s.addNode n).2.puzzleValences = s.puzzleValences := by
  unfold GameState.addNode
  cases hc : s.canAddNode n with
  | error e => rfl
  | ok u =>
    cases hl : s.currentTrail.getLast? with
    | none => rfl
    | some last =>
      dsimp only
      split <;> rfl

lemma popNode_puzzleValences (s : GameState) :
    s.popNode.2.puzzleValences = s.puzzleValences := by
  unfold GameState.popNode
  by_cases hlen : s.currentTrail.length ≤ 1
  · rw [if_pos hlen]
  · rw [if_neg hlen]
    cases hl : s.currentTrail.getLast? with
    | none => rfl
    | some node =>
      dsimp only
      cases hr : s.currentTrail.dropLast.getLast? with
      | none => rfl
      | some prev =>
        unfold EdgeSet.pop
        cases hE : s.edges.drawOrder.getLast? with
        | none => rfl
        | some e => rfl

lemma stepOp_puzzleValences (s : GameState) (op : Op) :
    (stepOp s op).puzzleValences = s.puzzleValences := by
  cases op with
  | add n => exact addNode_puzzleValences s n
  | pop => exact popNode_puzzleValences s
  | reset => rfl

lemma runOps_puzzleValences (ops : List Op) (s : GameState) :
    (runOps ops s).puzzleValences = s.puzzleValences := by
  induction ops generalizing s with
  | nil => rfl
  | cons op rest ih => exact (ih (stepOp s op)).trans (stepOp_puzzleValences s op)

/-- C2: valence conservation — starting from a fresh state machine on any
9-entry target vector, after any sequence of `add_node`, `pop_node` and
`reset` calls (hence after every prefix of any such sequence, in
particular after every successful add), the sum of the current valences
equals the sum of the target valences minus twice the number of drawn
edges. -/
theorem valence_conservation (v : Valences) (ops : List Op) :
    (runOps ops (GameState.new v)).currentValences.total
      = v.total - 2 * (runOps ops (GameState.new v)).edges.len := by
  have h := (reachInv_reachable v ops).1
  have hp := runOps_puzzleValences ops (GameState.new v)
  rw [hp] at h
  have hv : (GameState.new v).puzzleValences = v := rfl
  rw [hv] at h
  omega

/-- C7: decrement-at-zero is unreachable through the public surface — in
every state reachable from a fresh `GameState` by `add_node` / `pop_node` /
`reset` calls, whenever validation lets `add_node` draw an edge (nonempty
trail, `can_add_node` succeeds), both the candidate and the trail's last
cell hold valence at least 1 at the moment they are decremented. -/
theorem decrement_endpoints_positive (v : Valences) (ops : List Op) (n last : NodeId)
    (hlast : (runOps ops (GameState.new v)).currentTrail.getLast? = some last)
    (hok : (runOps ops (GameState.new v)).canAddNode n = .ok ()) :
    1 ≤ (runOps ops (GameState.new v)).currentValences n
      ∧ 1 ≤ (runOps ops (GameState.new v)).currentValences last := by
  obtain ⟨hz, _⟩ := canAddNode_ok_facts _ n hok
  have h := reachInv_reachable v ops
  refine ⟨Nat.one_le_iff_ne_zero.mpr hz, ?_⟩
  rcases (h.2.2 last hlast).2 with h' | h'
  · exact h'
  · exfalso
    have := Valences.single_le_total (runOps ops (GameState.new v)).currentValences n
    omega

/-- C7 witness: on the triangle configuration after `add(0)`, the candidate
cell 1 and the trail's last cell 0 both hold positive valence. -/
theorem decrement_endpoints_positive_witness :
    1 ≤ (runOps [Op.add 0] (GameState.new vTri)).currentValences 1
      ∧ 1 ≤ (runOps [Op.add 0] (GameState.new vTri)).currentValences 0 :=
  decrement_endpoints_positive vTri [Op.add 0] 1 0 (by decide) rfl

lemma Valences.restore (cv : Valences) (a b : NodeId) (hab : a ≠ b)
    (ha : 1 ≤ cv a) (hb : 1 ≤ cv b) :
    Valences.increment (Valences.increment ((cv.decrement a).decrement b) a) b = cv := by
  funext i
  by_cases hia : i = a
  · subst hia
    rw [Valences.increment_noteq _ hab, Valences.increment_same,
      Valences.decrement_noteq _ hab, Valences.decrement_same]
    omega
  · by_cases hib : i = b
    · subst hib
      rw [Valences.increment_same, Valences.increment_noteq _ (fun h => hia h),
        Valences.decrement_same, Valences.decrement_noteq _ (fun h => hia h)]
      omega
    · rw [Valences.increment_noteq _ hib, Valences.increment_noteq _ hia,
        Valences.decrement_noteq _ hib, Valences.decrement_noteq _ hia]

lemma popNode_addNode_restore (s : GameState) (x : NodeId) (hI : ReachInv s)
    (hsucc : (s.addNode x).1.isInvalid = false) :
    (s.addNode x).2.popNode.2 = s := by
  obtain ⟨pv, cv, ⟨edl⟩, tr⟩ := s
  unfold GameState.addNode at hsucc ⊢
  cases hc : GameState.canAddNode ⟨pv, cv, ⟨edl⟩, tr⟩ x with
  | error e =>
    rw [hc] at hsucc
    simp [MoveResult.isInvalid] at hsucc
  | ok u =>
    cases u
    obtain ⟨hz, hrest⟩ := canAddNode_ok_facts _ x hc
    dsimp only at hz hrest
    cases hl : tr.getLast? with
    | none =>
      have htrail : tr = [] := List.getLast?_eq_none_iff.mp hl
      subst htrail
      dsimp only
      unfold GameState.popNode
      rw [if_pos (by simp)]
    | some last =>
      obtain ⟨hnl, hadj, hcont, hone⟩ := hrest last hl
      have hx1 : 1 ≤ cv x := Nat.one_le_iff_ne_zero.mpr hz
      have hlast1 : 1 ≤ cv last := by
        rcases (hI.2.2 last hl).2 with h' | h'
        · exact h'
        · exfalso
          have := Valences.single_le_total cv x
          dsimp only at h'
          omega
      have htr_ne : tr ≠ [] := by
        intro h0
        rw [h0] at hl
        simp at hl
      have htl : 1 ≤ tr.length := List.length_pos.mpr htr_ne
      dsimp only
      rw [apply_ite Prod.snd]
      dsimp only
      rw [ite_self]
      unfold GameState.popNode
      dsimp only
      rw [if_neg (by simp only [List.length_append, List.length_singleton]; omega)]
      rw [List.getLast?_concat]
      dsimp only
      rw [List.dropLast_concat, hl]
      dsimp only
      have haddE : EdgeSet.add ⟨edl⟩ (Edge.new x last)
          = { drawOrder := edl ++ [Edge.new x last] } := by
        unfold EdgeSet.add
        rw [if_neg hcont]
      rw [haddE]
      unfold EdgeSet.pop
      dsimp only
      rw [List.getLast?_concat]
      dsimp only
      rw [List.dropLast_concat]
      rw [Valences.restore cv x last hnl hx1 hlast1]

/-- C3: undo inverts add — for every state reachable from a fresh
`GameState` through the public surface and every cell `x` on which
`add_node(x)` succeeds (returns `FirstNode`, `EdgeAdded` or
`PuzzleComplete`, i.e. not `Invalid`), an immediate `pop_node()` restores
the entire prior state: current valence vector, edge collection (both
membership and draw order) and trail. -/
theorem popNode_inverts_addNode (v : Valences) (ops : List Op) (x : NodeId)
    (hsucc : ((runOps ops (GameState.new v)).addNode x).1.isInvalid = false) :
    ((runOps ops (GameState.new v)).addNode x).2.popNode.2
      = runOps ops (GameState.new v) :=
  popNode_addNode_restore _ x (reachInv_reachable v ops) hsucc

/-- C3 witness: on the triangle configuration with trail `[0]`, adding cell
1 draws edge 0-1, and an immediate undo restores the prior state exactly. -/
theorem popNode_inverts_addNode_witness :
    ((runOps [Op.add 0] (GameState.new vTri)).addNode 1).2.popNode.2
      = runOps [Op.add 0] (GameState.new vTri) :=
  popNode_inverts_addNode vTri [Op.add 0] 1 (by decide)

/-- C5: solution identity is order-independent — two `Solution`s built from
the same canonical edges inserted in any two orders (any permutation) are
equal, and their canonically sorted hash representations coincide, so a
found-solution set recognizes a re-discovered solution regardless of the
order its edges were drawn. -/
theorem solution_order_independent (l1 l2 : List Edge) (h : l1.Perm l2) :
    Solution.fromEdgeList l1 = Solution.fromEdgeList l2
      ∧ (Solution.fromEdgeList l1).hashRep = (Solution.fromEdgeList l2).hashRep := by
  have heq : Solution.fromEdgeList l1 = Solution.fromEdgeList l2 := by
    unfold Solution.fromEdgeList
    rw [List.toFinset_eq_of_perm _ _ h]
  exact ⟨heq, by rw [heq]⟩

/-- C5 witness: the triangle solution built as `[0-1, 1-3, 0-3]` and as
`[0-3, 0-1, 1-3]` gives equal Solutions and equal hash representations. -/
theorem solution_order_independent_witness :
    Solution.fromEdgeList [Edge.new 0 1, Edge.new 1 3, Edge.new 0 3]
        = Solution.fromEdgeList [Edge.new 0 3, Edge.new 0 1, Edge.new 1 3]
      ∧ (Solution.fromEdgeList [Edge.new 0 1, Edge.new 1 3, Edge.new 0 3]).hashRep
        = (Solution.fromEdgeList [Edge.new 0 3, Edge.new 0 1, Edge.new 1 3]).hashRep :=
  solution_order_independent [Edge.new 0 1, Edge.new 1 3, Edge.new 0 3]
    [Edge.new 0 3, Edge.new 0 1, Edge.new 1 3] (by decide)

/-- C8: applying the `Identity` symmetry to any valence vector is a no-op,
and applying all 8 symmetries to any fully asymmetric vector (all 9 entries
pairwise distinct) yields 8 pairwise-distinct vectors. -/
theorem applySymmetry_identity_and_distinct :
    (∀ v : Valences, applySymmetry v Symmetry.Identity = v)
      ∧ ∀ v : Valences, (∀ i j : NodeId, v i = v j → i = j) →
          (Symmetry.all.map (applySymmetry v)).Pairwise (· ≠ ·) := by
  constructor
  · intro v
    funext i
    fin_cases i <;> rfl
  · intro v hv
    have hdiff : ∀ s1 s2 : Symmetry, s1 ≠ s2 →
        ∃ i : NodeId, (symTable s1).getD i.val 0 ≠ (symTable s2).getD i.val 0 := by
      decide
    have hmap : ∀ s1 s2 : Symmetry, s1 ≠ s2 → applySymmetry v s1 ≠ applySymmetry v s2 := by
      intro s1 s2 hne heq
      obtain ⟨i, hi⟩ := hdiff s1 s2 hne
      have hfi := congrFun heq i
      unfold applySymmetry at hfi
      exact hi (hv _ _ hfi)
    rw [List.pairwise_map]
    have hall : Symmetry.all.Pairwise (· ≠ ·) := by decide
    exact hall.imp (fun h => hmap _ _ h)

/-- C8 witness: on the concrete asymmetric vector `[1,…,9]`, the identity
symmetry is a no-op and the 8 symmetry images are pairwise distinct. -/
theorem applySymmetry_identity_and_distinct_witness :
    applySymmetry vAsym Symmetry.Identity = vAsym
      ∧ (Symmetry.all.map (applySymmetry vAsym)).Pairwise (· ≠ ·) :=
  ⟨applySymmetry_identity_and_distinct.1 vAsym,
    applySymmetry_identity_and_distinct.2 vAsym (by decide)⟩

/-- C9: library selection — for a loaded library (every stored complexity
bucket nonempty, as `from_csv` guarantees), `random_puzzle(complexity)`
returns `none` exactly when the complexity is absent; when it returns a
config, the config carries that complexity, its valences are the chosen
symmetry's image of a base record stored at that complexity, and its
total-solutions estimate is `complexity / (sum(valences) / 2)` in integer
arithmetic. -/
theorem randomPuzzle_spec (lib : PuzzleLibrary) (c pick : Nat) (sym : Symmetry)
    (hload : ∀ p ∈ lib.puzzlesByComplexity, p.2 ≠ []) :
    (lib.randomPuzzle c pick sym = none ↔ lib.lookupComplexity c = none)
      ∧ ∀ cfg, lib.randomPuzzle c pick sym = some cfg →
          cfg.complexity = c
            ∧ (∃ bases base, lib.lookupComplexity c = some bases ∧ base ∈ bases
                ∧ cfg.valences = applySymmetry base sym)
            ∧ cfg.totalSolutions = c / (cfg.valences.total / 2) := by
  unfold PuzzleLibrary.randomPuzzle
  cases hlk : lib.lookupComplexity c with
  | none =>
    refine ⟨by simp, ?_⟩
    intro cfg hcfg
    simp at hcfg
  | some bases =>
    have hb : bases ≠ [] := by
      unfold PuzzleLibrary.lookupComplexity at hlk
      cases hf : lib.puzzlesByComplexity.find? (fun p => p.1 == c) with
      | none => rw [hf] at hlk; simp at hlk
      | some p =>
        rw [hf] at hlk
        simp only [Option.map_some', Option.some.injEq] at hlk
        have hmem := List.mem_of_find?_eq_some hf
        rw [← hlk]
        exact hload p hmem
    have hlen : 0 < bases.length := List.length_pos.mpr hb
    have hlt : pick % bases.length < bases.length := Nat.mod_lt _ hlen
    have hcb : PuzzleLibrary.choose bases pick
        = some (bases.get ⟨pick % bases.length, hlt⟩) := by
      unfold PuzzleLibrary.choose
      exact List.get?_eq_get hlt
    dsimp only
    rw [hcb]
    dsimp only
    refine ⟨by simp, ?_⟩
    intro cfg hcfg
    have hc' := Option.some.inj hcfg
    subst hc'
    exact ⟨rfl, ⟨bases, _, rfl, List.get_mem _ _ _, rfl⟩, rfl⟩

/-- C9 witness: on a one-record library holding the triangle at complexity
6, requesting complexity 6 finds a record (and would report `none` only if
the complexity were absent). -/
theorem randomPuzzle_spec_witness :
    PuzzleLibrary.randomPuzzle libOne 6 0 Symmetry.Identity = none
      ↔ PuzzleLibrary.lookupComplexity libOne 6 = none :=
  (randomPuzzle_spec libOne 6 0 Symmetry.Identity (by decide)).1

/-- C6: triangle scenario — on a session with target `[2,2,0,2,0,0,0,0,0]`,
the calls `add(0), add(1), add(3), add(0)` report `FirstNode 0`,
`EdgeAdded 0-1`, `EdgeAdded 1-3`, and `Complete` with solution edge set
`{0-1, 1-3, 0-3}` and `is_new = true`; after `reset()` the same four calls
report `Complete` with `is_new = false` and the found-solution count stays
1. -/
theorem triangle_scenario :
    (runSession (PuzzleSession.new vTri 1) [0, 1, 3, 0]).1
        = [SessionResult.FirstNode 0, SessionResult.EdgeAdded (Edge.new 0 1),
            SessionResult.EdgeAdded (Edge.new 1 3),
            SessionResult.Complete ⟨{Edge.new 0 1, Edge.new 1 3, Edge.new 0 3}⟩ true]
      ∧ (runSession ((runSession (PuzzleSession.new vTri 1) [0, 1, 3, 0]).2.reset)
            [0, 1, 3, 0]).1.getLast?
        = some (SessionResult.Complete ⟨{Edge.new 0 1, Edge.new 1 3, Edge.new 0 3}⟩ false)
      ∧ (runSession ((runSession (PuzzleSession.new vTri 1) [0, 1, 3, 0]).2.reset)
            [0, 1, 3, 0]).2.foundSolutions.card = 1 := by
  decide
